import Mathlib

/-!
# Verification of the intrusive Galerkin / spectral projection engine

Shallow embedding of the tutorial `src/tutorial/intrusive_galerkin.ipynb` and of
the spectral projection engine it exercises.  The tutorial's own code (the cells
building `expected_app`, `right_hand_side`, `initial_condition`, the moment
reconstruction) is embedded directly; the library internals it calls
(`chaospy.orth_ttr`, `chaospy.E`, multi-index enumeration) are not in the
repository sources and are modelled from the specification.

Polynomials in the two random parameters `a` and `I` are represented exactly
over `ℚ`:
* `Poly1 := List ℚ` — a univariate polynomial, entry `i` the coefficient of `x^i`;
* `Poly2 := List Poly1` — a bivariate polynomial, row `i` (a `Poly1` in `I`)
  the coefficient of `a^i`.
Expectations are taken against a moment functional `m : Nat → ℚ` with
`m k = E[x^k]`; for the tutorial's distributions these are the exact moments of
`Uniform(1/10, 1/5)` and `Uniform(1, 2)`.
-/

/-- A univariate polynomial over `ℚ`: entry `i` is the coefficient of `x^i`. -/
abbrev Poly1 : Type := List ℚ

/-- Coefficient access (zero beyond the list). -/
def coeff1 (p : Poly1) (n : Nat) : ℚ := List.getD p n 0

/-- Addition of univariate polynomials. -/
def padd1 : Poly1 → Poly1 → Poly1
  | [], q => q
  | p, [] => p
  | a :: p, b :: q => (a + b) :: padd1 p q

/-- Scalar multiplication. -/
def smul1 (r : ℚ) (p : Poly1) : Poly1 := List.map (fun a => r * a) p

/-- Multiplication by the variable `x`. -/
def xshift1 (p : Poly1) : Poly1 := 0 :: p

theorem smul1_nil (r : ℚ) : smul1 r [] = [] := rfl

theorem smul1_cons (r a : ℚ) (p : Poly1) :
    smul1 r (a :: p) = (r * a) :: smul1 r p := rfl

/-- Multiplication of univariate polynomials (convolution). -/
def pmul1 : Poly1 → Poly1 → Poly1
  | [], _ => []
  | a :: p, q => padd1 (smul1 a q) (xshift1 (pmul1 p q))

/-- Expectation of a univariate polynomial against a moment functional `m`
(`m k` stands for `E[x^k]`). -/
def E1 (m : Nat → ℚ) : Poly1 → ℚ
  | [] => 0
  | a :: p => a * m 0 + E1 (fun k => m (k + 1)) p

theorem E1_nil (m : Nat → ℚ) : E1 m [] = 0 := rfl

theorem E1_cons (m : Nat → ℚ) (a : ℚ) (p : Poly1) :
    E1 m (a :: p) = a * m 0 + E1 (fun k => m (k + 1)) p := rfl

theorem padd1_nil_left (q : Poly1) : padd1 [] q = q := by
  cases q <;> rfl

theorem padd1_nil_right (p : Poly1) : padd1 p [] = p := by
  cases p <;> rfl

theorem padd1_cons (a b : ℚ) (p q : Poly1) :
    padd1 (a :: p) (b :: q) = (a + b) :: padd1 p q := rfl

/-- `E1` is additive. -/
theorem E1_padd1 (m : Nat → ℚ) (p q : Poly1) :
    E1 m (padd1 p q) = E1 m p + E1 m q := by
  induction p generalizing m q with
  | nil => simp [padd1, E1]
  | cons a p ih =>
    cases q with
    | nil => simp [padd1_nil_right, E1]
    | cons b q =>
      simp only [padd1_cons, E1_cons, ih]
      ring

/-- `E1` commutes with scalar multiplication. -/
theorem E1_smul1 (m : Nat → ℚ) (r : ℚ) (p : Poly1) :
    E1 m (smul1 r p) = r * E1 m p := by
  induction p generalizing m with
  | nil => simp [smul1_nil, E1]
  | cons a p ih =>
    simp only [smul1_cons, E1_cons, ih]
    ring

theorem pmul1_nil_left (q : Poly1) : pmul1 [] q = [] := rfl

theorem pmul1_cons (a : ℚ) (p q : Poly1) :
    pmul1 (a :: p) q = padd1 (smul1 a q) (xshift1 (pmul1 p q)) := rfl

/-- `E1 ∘ pmul1` is additive in the left factor. -/
theorem E1_pmul1_add_left (m : Nat → ℚ) (p p' q : Poly1) :
    E1 m (pmul1 (padd1 p p') q) = E1 m (pmul1 p q) + E1 m (pmul1 p' q) := by
  induction p generalizing m p' with
  | nil => rw [padd1_nil_left, pmul1_nil_left, E1_nil]; ring
  | cons a p ih =>
    cases p' with
    | nil => rw [padd1_nil_right, pmul1_nil_left, E1_nil]; ring
    | cons b p' =>
      simp only [padd1_cons, pmul1_cons, E1_padd1, E1_smul1, xshift1, E1_cons, ih]
      ring

/-- `E1 ∘ pmul1` commutes with scalar multiplication in the left factor. -/
theorem E1_pmul1_smul_left (m : Nat → ℚ) (r : ℚ) (p q : Poly1) :
    E1 m (pmul1 (smul1 r p) q) = r * E1 m (pmul1 p q) := by
  induction p generalizing m with
  | nil => simp [smul1_nil, pmul1, E1]
  | cons a p ih =>
    simp only [smul1_cons, pmul1_cons, E1_padd1, E1_smul1, xshift1, E1_cons, ih]
    ring

/-- `E1 ∘ pmul1` is additive in the right factor. -/
theorem E1_pmul1_add_right (m : Nat → ℚ) (p q q' : Poly1) :
    E1 m (pmul1 p (padd1 q q')) = E1 m (pmul1 p q) + E1 m (pmul1 p q') := by
  induction p generalizing m with
  | nil => simp [pmul1, E1]
  | cons a p ih =>
    simp only [pmul1_cons, E1_padd1, E1_smul1, xshift1, E1_cons, ih]
    ring

/-- `E1 ∘ pmul1` commutes with scalar multiplication in the right factor. -/
theorem E1_pmul1_smul_right (m : Nat → ℚ) (r : ℚ) (p q : Poly1) :
    E1 m (pmul1 p (smul1 r q)) = r * E1 m (pmul1 p q) := by
  induction p generalizing m with
  | nil => simp [pmul1, E1]
  | cons a p ih =>
    simp only [pmul1_cons, E1_padd1, E1_smul1, xshift1, E1_cons, ih]
    ring

/-! ## Bivariate polynomials -/

/-- A bivariate polynomial in `(a, I)`: row `i` (a `Poly1` in the variable `I`)
is the coefficient of `a^i`. -/
abbrev Poly2 : Type := List Poly1

/-- Coefficient of `a^i * I^j`. -/
def coeff2 (p : Poly2) (i j : Nat) : ℚ := coeff1 (List.getD p i []) j

/-- Addition of bivariate polynomials. -/
def padd2 : Poly2 → Poly2 → Poly2
  | [], q => q
  | p, [] => p
  | r :: p, s :: q => padd1 r s :: padd2 p q

/-- Scalar multiplication. -/
def smul2 (c : ℚ) (p : Poly2) : Poly2 := List.map (smul1 c) p

/-- Multiplication by the variable `a` (prepend a zero row). -/
def ashift2 (p : Poly2) : Poly2 := [] :: p

/-- Multiply every row of `q` by the univariate polynomial `r`. -/
def rowmul (r : Poly1) (q : Poly2) : Poly2 := List.map (pmul1 r) q

/-- Multiplication of bivariate polynomials. -/
def pmul2 : Poly2 → Poly2 → Poly2
  | [], _ => []
  | r :: p, q => padd2 (rowmul r q) (ashift2 (pmul2 p q))

/-- Expectation of a bivariate polynomial against per-dimension moment
functionals `ma` (for `a`) and `mi` (for `I`); independence of the two
marginals makes `E[a^i I^j] = ma i * mi j`. -/
def E2 (ma mi : Nat → ℚ) : Poly2 → ℚ
  | [] => 0
  | r :: p => ma 0 * E1 mi r + E2 (fun i => ma (i + 1)) mi p

theorem E2_nil (ma mi : Nat → ℚ) : E2 ma mi [] = 0 := rfl

theorem E2_cons (ma mi : Nat → ℚ) (r : Poly1) (p : Poly2) :
    E2 ma mi (r :: p) = ma 0 * E1 mi r + E2 (fun i => ma (i + 1)) mi p := rfl

theorem padd2_nil_left (q : Poly2) : padd2 [] q = q := by cases q <;> rfl

theorem padd2_nil_right (p : Poly2) : padd2 p [] = p := by cases p <;> rfl

theorem padd2_cons (r s : Poly1) (p q : Poly2) :
    padd2 (r :: p) (s :: q) = padd1 r s :: padd2 p q := rfl

theorem smul2_nil (c : ℚ) : smul2 c [] = [] := rfl

theorem smul2_cons (c : ℚ) (r : Poly1) (p : Poly2) :
    smul2 c (r :: p) = smul1 c r :: smul2 c p := rfl

theorem rowmul_nil (r : Poly1) : rowmul r [] = [] := rfl

theorem rowmul_cons (r s : Poly1) (q : Poly2) :
    rowmul r (s :: q) = pmul1 r s :: rowmul r q := rfl

theorem pmul2_nil_left (q : Poly2) : pmul2 [] q = [] := rfl

theorem pmul2_cons (r : Poly1) (p q : Poly2) :
    pmul2 (r :: p) q = padd2 (rowmul r q) (ashift2 (pmul2 p q)) := rfl

/-- `E2` is additive. -/
theorem E2_padd2 (ma mi : Nat → ℚ) (p q : Poly2) :
    E2 ma mi (padd2 p q) = E2 ma mi p + E2 ma mi q := by
  induction p generalizing ma q with
  | nil => rw [padd2_nil_left, E2_nil]; ring
  | cons r p ih =>
    cases q with
    | nil => rw [padd2_nil_right, E2_nil]; ring
    | cons s q =>
      simp only [padd2_cons, E2_cons, E1_padd1, ih]
      ring

/-- `E2` commutes with scalar multiplication. -/
theorem E2_smul2 (ma mi : Nat → ℚ) (c : ℚ) (p : Poly2) :
    E2 ma mi (smul2 c p) = c * E2 ma mi p := by
  induction p generalizing ma with
  | nil => rw [smul2_nil, E2_nil]; ring
  | cons r p ih =>
    simp only [smul2_cons, E2_cons, E1_smul1, ih]
    ring

/-- `E2 ∘ rowmul` is additive in the `Poly1` factor. -/
theorem E2_rowmul_add_left (ma mi : Nat → ℚ) (r r' : Poly1) (q : Poly2) :
    E2 ma mi (rowmul (padd1 r r') q)
      = E2 ma mi (rowmul r q) + E2 ma mi (rowmul r' q) := by
  induction q generalizing ma with
  | nil => simp [rowmul_nil, E2_nil]
  | cons s q ih =>
    simp only [rowmul_cons, E2_cons, E1_pmul1_add_left, ih]
    ring

/-- `E2 ∘ rowmul` commutes with scalars in the `Poly1` factor. -/
theorem E2_rowmul_smul_left (ma mi : Nat → ℚ) (c : ℚ) (r : Poly1) (q : Poly2) :
    E2 ma mi (rowmul (smul1 c r) q) = c * E2 ma mi (rowmul r q) := by
  induction q generalizing ma with
  | nil => simp [rowmul_nil, E2_nil]
  | cons s q ih =>
    simp only [rowmul_cons, E2_cons, E1_pmul1_smul_left, ih]
    ring

/-- `E2 ∘ rowmul` is additive in the `Poly2` factor. -/
theorem E2_rowmul_add_right (ma mi : Nat → ℚ) (r : Poly1) (q q' : Poly2) :
    E2 ma mi (rowmul r (padd2 q q'))
      = E2 ma mi (rowmul r q) + E2 ma mi (rowmul r q') := by
  induction q generalizing ma q' with
  | nil => rw [padd2_nil_left, rowmul_nil, E2_nil]; ring
  | cons s q ih =>
    cases q' with
    | nil => rw [padd2_nil_right, rowmul_nil, E2_nil]; ring
    | cons s' q' =>
      simp only [padd2_cons, rowmul_cons, E2_cons, E1_pmul1_add_right, ih]
      ring

/-- `E2 ∘ rowmul` commutes with scalars in the `Poly2` factor. -/
theorem E2_rowmul_smul_right (ma mi : Nat → ℚ) (c : ℚ) (r : Poly1) (q : Poly2) :
    E2 ma mi (rowmul r (smul2 c q)) = c * E2 ma mi (rowmul r q) := by
  induction q generalizing ma with
  | nil => rw [smul2_nil, rowmul_nil, E2_nil]; ring
  | cons s q ih =>
    simp only [smul2_cons, rowmul_cons, E2_cons, E1_pmul1_smul_right, ih]
    ring

theorem E2_pmul2_nil_right (ma mi : Nat → ℚ) (p : Poly2) :
    E2 ma mi (pmul2 p []) = 0 := by
  induction p generalizing ma with
  | nil => rfl
  | cons r p ih =>
    simp only [pmul2_cons, rowmul_nil, padd2_nil_left, ashift2, E2_cons,
      E1_nil, ih]
    ring

/-- `E2 ∘ pmul2` is additive in the left factor. -/
theorem E2_pmul2_add_left (ma mi : Nat → ℚ) (p p' q : Poly2) :
    E2 ma mi (pmul2 (padd2 p p') q)
      = E2 ma mi (pmul2 p q) + E2 ma mi (pmul2 p' q) := by
  induction p generalizing ma p' with
  | nil => rw [padd2_nil_left, pmul2_nil_left, E2_nil]; ring
  | cons r p ih =>
    cases p' with
    | nil => rw [padd2_nil_right, pmul2_nil_left, E2_nil]; ring
    | cons r' p' =>
      simp only [padd2_cons, pmul2_cons, ashift2, E2_padd2, E2_cons,
        E1_nil, E2_rowmul_add_left, ih]
      ring

/-- `E2 ∘ pmul2` commutes with scalars in the left factor. -/
theorem E2_pmul2_smul_left (ma mi : Nat → ℚ) (c : ℚ) (p q : Poly2) :
    E2 ma mi (pmul2 (smul2 c p) q) = c * E2 ma mi (pmul2 p q) := by
  induction p generalizing ma with
  | nil => rw [smul2_nil, pmul2_nil_left, E2_nil]; ring
  | cons r p ih =>
    simp only [smul2_cons, pmul2_cons, ashift2, E2_padd2, E2_cons, E1_nil,
      E2_rowmul_smul_left, ih]
    ring

/-- `E2 ∘ pmul2` is additive in the right factor. -/
theorem E2_pmul2_add_right (ma mi : Nat → ℚ) (p q q' : Poly2) :
    E2 ma mi (pmul2 p (padd2 q q'))
      = E2 ma mi (pmul2 p q) + E2 ma mi (pmul2 p q') := by
  induction p generalizing ma with
  | nil => simp [pmul2_nil_left, E2_nil]
  | cons r p ih =>
    simp only [pmul2_cons, ashift2, E2_padd2, E2_cons, E1_nil,
      E2_rowmul_add_right, ih]
    ring

/-- `E2 ∘ pmul2` commutes with scalars in the right factor. -/
theorem E2_pmul2_smul_right (ma mi : Nat → ℚ) (c : ℚ) (p q : Poly2) :
    E2 ma mi (pmul2 p (smul2 c q)) = c * E2 ma mi (pmul2 p q) := by
  induction p generalizing ma with
  | nil => simp [pmul2_nil_left, E2_nil]
  | cons r p ih =>
    simp only [pmul2_cons, ashift2, E2_padd2, E2_cons, E1_nil,
      E2_rowmul_smul_right, ih]
    ring

/-! ## Multi-index enumeration -/

/-- Modelled from the spec: the multi-index enumerator of the Multivariate
Basis Composer (the `chaospy` indexing internals are not part of the repository
sources).  `compositions d g` lists every `d`-tuple of naturals with total
degree exactly `g`, in lexicographic order. -/
def compositions : Nat → Nat → List (List Nat)
  | 0, 0 => [[]]
  | 0, _ + 1 => []
  | d + 1, g =>
      (List.range (g + 1)).flatMap
        (fun i => (compositions d (g - i)).map (fun t => i :: t))

/-- Modelled from the spec: all multi-indices of dimension `d` with total
degree at most `order`, graded by total degree ascending, ties broken
lexicographically on the index tuple. -/
def multiIndices (d order : Nat) : List (List Nat) :=
  (List.range (order + 1)).flatMap (fun g => compositions d g)

/-- The graded-lexicographic strict order on multi-indices. -/
def gradedLex (x y : List Nat) : Prop :=
  x.sum < y.sum ∨ (x.sum = y.sum ∧ List.Lex (· < ·) x y)

instance (x y : List Nat) : Decidable (gradedLex x y) := by
  unfold gradedLex; infer_instance

theorem compositions_zero_length (g : Nat) :
    (compositions 0 g).length = if g = 0 then 1 else 0 := by
  cases g <;> rfl

theorem compositions_succ (d g : Nat) :
    compositions (d + 1) g =
      (List.range (g + 1)).flatMap
        (fun i => (compositions d (g - i)).map (fun t => i :: t)) := rfl

/-- Stars-and-bars: the number of `d+1`-tuples of total degree `g`. -/
theorem compositions_length (d : Nat) :
    ∀ g, (compositions (d + 1) g).length = (g + d).choose d := by
  induction d with
  | zero =>
    intro g
    rw [compositions_succ, List.length_flatMap]
    have hb : (List.map
        (List.length ∘ fun i => (compositions 0 (g - i)).map (fun t => i :: t))
        (List.range (g + 1))).sum
        = ∑ i ∈ Finset.range (g + 1),
            ((compositions 0 (g - i)).map (fun t => i :: t)).length := rfl
    rw [hb]
    have h1 : ∀ i ∈ Finset.range (g + 1),
        ((compositions 0 (g - i)).map (fun t => i :: t)).length
          = if g - i = 0 then 1 else 0 := by
      intro i _; rw [List.length_map, compositions_zero_length]
    rw [Finset.sum_congr rfl h1, ← Finset.sum_filter]
    rw [show (Finset.range (g + 1)).filter (fun i => g - i = 0) = {g} by
      ext i
      simp only [Finset.mem_filter, Finset.mem_range, Finset.mem_singleton]
      omega]
    simp
  | succ d ih =>
    intro g
    rw [compositions_succ, List.length_flatMap]
    have hb : (List.map
        (List.length ∘ fun i =>
          (compositions (d + 1) (g - i)).map (fun t => i :: t))
        (List.range (g + 1))).sum
        = ∑ i ∈ Finset.range (g + 1),
            ((compositions (d + 1) (g - i)).map (fun t => i :: t)).length := rfl
    rw [hb]
    have h1 : ∀ i ∈ Finset.range (g + 1),
        ((compositions (d + 1) (g - i)).map (fun t => i :: t)).length
          = ((g - i) + d).choose d := by
      intro i _; rw [List.length_map, ih]
    rw [Finset.sum_congr rfl h1]
    have h2 := Finset.sum_range_reflect (fun j => (j + d).choose d) (g + 1)
    have h3 : ∀ j ∈ Finset.range (g + 1),
        ((g - j) + d).choose d = ((g + 1 - 1 - j) + d).choose d := by
      intro j hj; simp
    rw [Finset.sum_congr rfl h3, h2, Nat.sum_range_add_choose]
    rfl

/-- Every enumerated multi-index of `compositions d g` has total degree `g`
and length `d`. -/
theorem compositions_mem (d : Nat) :
    ∀ g, ∀ mi ∈ compositions d g, mi.sum = g ∧ mi.length = d := by
  induction d with
  | zero =>
    intro g mi hmi
    cases g with
    | zero =>
      rw [show compositions 0 0 = [[]] from rfl, List.mem_singleton] at hmi
      subst hmi; simp
    | succ g => simp [compositions] at hmi
  | succ d ih =>
    intro g mi hmi
    rw [compositions_succ, List.mem_flatMap] at hmi
    obtain ⟨i, hi, hmem⟩ := hmi
    rw [List.mem_map] at hmem
    obtain ⟨t, ht, rfl⟩ := hmem
    rw [List.mem_range] at hi
    obtain ⟨hsum, hlen⟩ := ih (g - i) t ht
    constructor
    · simp only [List.sum_cons, hsum]; omega
    · simp [hlen]

/-- `compositions d g` is sorted strictly lexicographically. -/
theorem compositions_pairwise (d : Nat) :
    ∀ g, (compositions d g).Pairwise (List.Lex (· < ·)) := by
  induction d with
  | zero =>
    intro g
    cases g with
    | zero => simp [compositions]
    | succ g => simp [compositions]
  | succ d ih =>
    intro g
    rw [compositions_succ, List.pairwise_flatMap]
    refine ⟨fun i _ => ?_, ?_⟩
    · exact List.Pairwise.map _ (fun t t' h => List.Lex.cons h) (ih (g - i))
    · refine (List.pairwise_lt_range (g + 1)).imp ?_
      intro i i' hii
      intro x hx y hy
      rw [List.mem_map] at hx hy
      obtain ⟨t, _, rfl⟩ := hx
      obtain ⟨t', _, rfl⟩ := hy
      exact List.Lex.rel hii

/-- `multiIndices d order` is sorted by the graded-lexicographic order:
total degree ascending, ties broken lexicographically. -/
theorem multiIndices_pairwise (d order : Nat) :
    (multiIndices d order).Pairwise gradedLex := by
  rw [multiIndices, List.pairwise_flatMap]
  refine ⟨fun g _ => ?_, ?_⟩
  · refine (compositions_pairwise d g).imp_of_mem ?_
    intro x y hx hy hlex
    exact Or.inr
      ⟨by rw [(compositions_mem d g x hx).1, (compositions_mem d g y hy).1],
        hlex⟩
  · refine (List.pairwise_lt_range (order + 1)).imp ?_
    intro g g' hgg
    intro x hx y hy
    exact Or.inl (by
      rw [(compositions_mem d g x hx).1, (compositions_mem d g' y hy).1]
      exact hgg)

/-! ## Coefficient-level theory -/

theorem coeff1_nil (n : Nat) : coeff1 [] n = 0 := by
  cases n <;> rfl

theorem coeff1_cons_zero (a : ℚ) (p : Poly1) : coeff1 (a :: p) 0 = a := rfl

theorem coeff1_cons_succ (a : ℚ) (p : Poly1) (n : Nat) :
    coeff1 (a :: p) (n + 1) = coeff1 p n := rfl

theorem coeff1_eq_zero {p : Poly1} {n : Nat} (h : p.length ≤ n) :
    coeff1 p n = 0 := List.getD_eq_default p 0 h

theorem coeff1_padd1 (p q : Poly1) (n : Nat) :
    coeff1 (padd1 p q) n = coeff1 p n + coeff1 q n := by
  induction p generalizing q n with
  | nil => rw [padd1_nil_left, coeff1_nil]; ring
  | cons a p ih =>
    cases q with
    | nil => rw [padd1_nil_right, coeff1_nil]; ring
    | cons b q =>
      rw [padd1_cons]
      cases n with
      | zero => simp [coeff1_cons_zero]
      | succ n => simp only [coeff1_cons_succ, ih]

theorem coeff1_smul1 (r : ℚ) (p : Poly1) (n : Nat) :
    coeff1 (smul1 r p) n = r * coeff1 p n := by
  induction p generalizing n with
  | nil => rw [smul1_nil, coeff1_nil]; ring
  | cons a p ih =>
    rw [smul1_cons]
    cases n with
    | zero => simp [coeff1_cons_zero]
    | succ n => simp only [coeff1_cons_succ, ih]

/-- Convolution formula for the coefficients of a univariate product. -/
theorem coeff1_pmul1 (p q : Poly1) (n : Nat) :
    coeff1 (pmul1 p q) n
      = ∑ i ∈ Finset.range (n + 1), coeff1 p i * coeff1 q (n - i) := by
  induction p generalizing n with
  | nil =>
    rw [pmul1_nil_left, coeff1_nil]
    simp [coeff1_nil]
  | cons a p ih =>
    rw [pmul1_cons, coeff1_padd1, coeff1_smul1]
    cases n with
    | zero =>
      simp only [xshift1, coeff1_cons_zero, Finset.sum_range_one]
      simp [coeff1_cons_zero]
    | succ m =>
      rw [show coeff1 (xshift1 (pmul1 p q)) (m + 1) = coeff1 (pmul1 p q) m
          from rfl, ih]
      rw [Finset.sum_range_succ' (fun i => coeff1 (a :: p) i *
        coeff1 q (m + 1 - i)) (m + 1)]
      simp only [coeff1_cons_succ, coeff1_cons_zero, Nat.succ_sub_succ,
        Nat.sub_zero]
      ring

theorem length_padd1 (p q : Poly1) :
    (padd1 p q).length = max p.length q.length := by
  induction p generalizing q with
  | nil => rw [padd1_nil_left]; simp
  | cons a p ih =>
    cases q with
    | nil => rw [padd1_nil_right]; simp
    | cons b q => simp only [padd1_cons, List.length_cons, ih]; omega

theorem length_smul1 (r : ℚ) (p : Poly1) : (smul1 r p).length = p.length :=
  List.length_map p _

/-- `E1` is the coefficient sum against the moments, over any range covering
the polynomial. -/
theorem E1_eq_sum (m : Nat → ℚ) (p : Poly1) :
    ∀ N, p.length ≤ N → E1 m p = ∑ i ∈ Finset.range N, coeff1 p i * m i := by
  induction p generalizing m with
  | nil => intro N _; simp [E1_nil, coeff1_nil]
  | cons a p ih =>
    intro N hN
    cases N with
    | zero => simp at hN
    | succ K =>
      rw [E1_cons, ih (fun k => m (k + 1)) K (by simpa using hN)]
      rw [Finset.sum_range_succ' (fun i => coeff1 (a :: p) i * m i) K]
      simp only [coeff1_cons_succ, coeff1_cons_zero]
      ring

theorem coeff2_nil (i j : Nat) : coeff2 [] i j = 0 := by
  cases i <;> simp [coeff2, coeff1_nil]

theorem coeff2_cons_zero (r : Poly1) (p : Poly2) (j : Nat) :
    coeff2 (r :: p) 0 j = coeff1 r j := rfl

theorem coeff2_cons_succ (r : Poly1) (p : Poly2) (i j : Nat) :
    coeff2 (r :: p) (i + 1) j = coeff2 p i j := rfl

theorem coeff2_eq_zero_col {p : Poly2} {i : Nat} (h : p.length ≤ i) (j : Nat) :
    coeff2 p i j = 0 := by
  rw [coeff2, List.getD_eq_default p [] h, coeff1_nil]

/-- Bound on the width of the rows of a bivariate polynomial. -/
def rowBound (p : Poly2) : Nat := p.foldr (fun r acc => max r.length acc) 0

theorem rowBound_cons (r : Poly1) (p : Poly2) :
    rowBound (r :: p) = max r.length (rowBound p) := rfl

theorem row_length_le (p : Poly2) : ∀ i, (p.getD i []).length ≤ rowBound p := by
  induction p with
  | nil => intro i; cases i <;> simp
  | cons r p ih =>
    intro i
    cases i with
    | zero => simp [rowBound_cons]
    | succ i =>
      calc ((r :: p).getD (i + 1) []).length = (p.getD i []).length := rfl
        _ ≤ rowBound p := ih i
        _ ≤ max r.length (rowBound p) := le_max_right _ _

theorem coeff2_eq_zero_row {p : Poly2} {j : Nat} (h : rowBound p ≤ j)
    (i : Nat) : coeff2 p i j = 0 :=
  coeff1_eq_zero (le_trans (row_length_le p i) h)

theorem coeff2_padd2 (p q : Poly2) (i j : Nat) :
    coeff2 (padd2 p q) i j = coeff2 p i j + coeff2 q i j := by
  induction p generalizing q i with
  | nil => rw [padd2_nil_left, coeff2_nil]; ring
  | cons r p ih =>
    cases q with
    | nil => rw [padd2_nil_right, coeff2_nil]; ring
    | cons s q =>
      rw [padd2_cons]
      cases i with
      | zero => simp only [coeff2_cons_zero, coeff1_padd1]
      | succ i => simp only [coeff2_cons_succ, ih]

theorem coeff2_smul2 (c : ℚ) (p : Poly2) (i j : Nat) :
    coeff2 (smul2 c p) i j = c * coeff2 p i j := by
  induction p generalizing i with
  | nil => rw [smul2_nil, coeff2_nil]; ring
  | cons r p ih =>
    rw [smul2_cons]
    cases i with
    | zero => simp only [coeff2_cons_zero, coeff1_smul1]
    | succ i => simp only [coeff2_cons_succ, ih]

theorem coeff1_pmul1_nil_right (r : Poly1) (j : Nat) :
    coeff1 (pmul1 r []) j = 0 := by
  rw [coeff1_pmul1]
  exact Finset.sum_eq_zero fun i _ => by rw [coeff1_nil]; ring

theorem coeff2_rowmul (r : Poly1) (q : Poly2) (i j : Nat) :
    coeff2 (rowmul r q) i j = coeff1 (pmul1 r (q.getD i [])) j := by
  induction q generalizing i with
  | nil =>
    rw [rowmul_nil, coeff2_nil]
    cases i <;> simp [coeff1_pmul1_nil_right]
  | cons s q ih =>
    rw [rowmul_cons]
    cases i with
    | zero => rfl
    | succ i => simpa only [coeff2_cons_succ] using ih i

/-- Two-dimensional convolution formula for the coefficients of a bivariate
product. -/
theorem coeff2_pmul2 (p q : Poly2) (i j : Nat) :
    coeff2 (pmul2 p q) i j
      = ∑ a ∈ Finset.range (i + 1), ∑ b ∈ Finset.range (j + 1),
          coeff2 p a b * coeff2 q (i - a) (j - b) := by
  induction p generalizing i with
  | nil =>
    rw [pmul2_nil_left, coeff2_nil]
    refine (Finset.sum_eq_zero fun a _ => Finset.sum_eq_zero fun b _ => ?_).symm
    rw [coeff2_nil]; ring
  | cons r p ih =>
    rw [pmul2_cons, coeff2_padd2, coeff2_rowmul]
    cases i with
    | zero =>
      rw [show coeff2 (ashift2 (pmul2 p q)) 0 j = coeff1 [] j from rfl,
        coeff1_nil, Finset.sum_range_one, coeff1_pmul1]
      have hcong : ∀ b ∈ Finset.range (j + 1),
          coeff2 (r :: p) 0 b * coeff2 q (0 - 0) (j - b)
            = coeff1 r b * coeff1 (q.getD 0 []) (j - b) := fun b _ => rfl
      rw [Finset.sum_congr rfl hcong]
      ring
    | succ i =>
      rw [show coeff2 (ashift2 (pmul2 p q)) (i + 1) j = coeff2 (pmul2 p q) i j
          from rfl, ih]
      rw [Finset.sum_range_succ' (fun a => ∑ b ∈ Finset.range (j + 1),
        coeff2 (r :: p) a b * coeff2 q (i + 1 - a) (j - b)) (i + 1)]
      simp only [coeff2_cons_succ, coeff2_cons_zero, Nat.succ_sub_succ,
        Nat.sub_zero]
      rw [coeff1_pmul1]
      rw [show ∑ b ∈ Finset.range (j + 1),
          coeff1 r b * coeff1 ((q.getD (i+1) [])) (j - b)
          = ∑ b ∈ Finset.range (j + 1), coeff1 r b * coeff2 q (i + 1) (j - b)
        from rfl]
      ring

/-- `E2` is the double coefficient sum against the moments, over any ranges
covering the polynomial. -/
theorem E2_eq_sum (ma mi : Nat → ℚ) (p : Poly2) :
    ∀ N K, p.length ≤ N → rowBound p ≤ K →
      E2 ma mi p = ∑ i ∈ Finset.range N, ∑ j ∈ Finset.range K,
        coeff2 p i j * ma i * mi j := by
  induction p generalizing ma with
  | nil =>
    intro N K _ _
    rw [E2_nil]
    refine (Finset.sum_eq_zero fun i _ => Finset.sum_eq_zero fun j _ => ?_).symm
    rw [coeff2_nil]; ring
  | cons r p ih =>
    intro N K hN hK
    cases N with
    | zero => simp at hN
    | succ M =>
      have hr : r.length ≤ K := le_trans (le_max_left _ _) hK
      have hp : rowBound p ≤ K := le_trans (le_max_right _ _) hK
      rw [E2_cons, E1_eq_sum mi r K hr,
        ih (fun i => ma (i + 1)) M K (by simpa using hN) hp,
        Finset.sum_range_succ' (fun i => ∑ j ∈ Finset.range K,
          coeff2 (r :: p) i j * ma i * mi j) M]
      simp only [coeff2_cons_succ, coeff2_cons_zero]
      rw [add_comm, Finset.mul_sum]
      congr 1
      exact Finset.sum_congr rfl fun j _ => by ring

/-- `E2` only depends on the coefficient function. -/
theorem E2_congr (ma mi : Nat → ℚ) {p q : Poly2}
    (h : ∀ i j, coeff2 p i j = coeff2 q i j) : E2 ma mi p = E2 ma mi q := by
  rw [E2_eq_sum ma mi p (max p.length q.length)
      (max (rowBound p) (rowBound q)) (le_max_left _ _) (le_max_left _ _),
    E2_eq_sum ma mi q (max p.length q.length)
      (max (rowBound p) (rowBound q)) (le_max_right _ _) (le_max_right _ _)]
  exact Finset.sum_congr rfl fun i _ => Finset.sum_congr rfl fun j _ => by
    rw [h]

theorem sum_range_sub (n : Nat) (G : Nat → ℚ) :
    ∑ t ∈ Finset.range (n + 1), G (n - t)
      = ∑ t ∈ Finset.range (n + 1), G t := by
  simpa using Finset.sum_range_reflect G (n + 1)

/-- Polynomial multiplication is commutative at the level of coefficients. -/
theorem coeff2_pmul2_comm (p q : Poly2) (i j : Nat) :
    coeff2 (pmul2 p q) i j = coeff2 (pmul2 q p) i j := by
  rw [coeff2_pmul2, coeff2_pmul2]
  rw [← sum_range_sub i (fun a => ∑ b ∈ Finset.range (j + 1),
    coeff2 p a b * coeff2 q (i - a) (j - b))]
  refine Finset.sum_congr rfl fun a ha => ?_
  rw [← sum_range_sub j (fun b =>
    coeff2 p (i - a) b * coeff2 q (i - (i - a)) (j - b))]
  refine Finset.sum_congr rfl fun b hb => ?_
  rw [Finset.mem_range] at ha hb
  rw [show i - (i - a) = a by omega, show j - (j - b) = b by omega]
  ring

/-- Replacing the right factor by a coefficient-equal polynomial does not
change the coefficients of a product. -/
theorem coeff2_pmul2_congr_right (w : Poly2) {X Y : Poly2}
    (h : ∀ i j, coeff2 X i j = coeff2 Y i j) (i j : Nat) :
    coeff2 (pmul2 w X) i j = coeff2 (pmul2 w Y) i j := by
  rw [coeff2_pmul2, coeff2_pmul2]
  exact Finset.sum_congr rfl fun a _ => Finset.sum_congr rfl fun b _ => by
    rw [h]

/-- The product basis polynomial built from two univariate factors:
row `i` is `p[i] • q`, so it represents `p(a) * q(I)`. -/
def tensor2 (p q : Poly1) : Poly2 := List.map (fun c => smul1 c q) p

theorem tensor2_nil (q : Poly1) : tensor2 [] q = [] := rfl

theorem tensor2_cons (a : ℚ) (p q : Poly1) :
    tensor2 (a :: p) q = smul1 a q :: tensor2 p q := rfl

theorem coeff2_tensor2 (p q : Poly1) (i j : Nat) :
    coeff2 (tensor2 p q) i j = coeff1 p i * coeff1 q j := by
  induction p generalizing i with
  | nil => rw [tensor2_nil, coeff2_nil, coeff1_nil]; ring
  | cons a p ih =>
    rw [tensor2_cons]
    cases i with
    | zero => rw [coeff2_cons_zero, coeff1_smul1, coeff1_cons_zero]
    | succ i => rw [coeff2_cons_succ, coeff1_cons_succ, ih]

theorem E2_tensor2 (ma mi : Nat → ℚ) (p q : Poly1) :
    E2 ma mi (tensor2 p q) = E1 ma p * E1 mi q := by
  induction p generalizing ma with
  | nil => rw [tensor2_nil, E2_nil, E1_nil]; ring
  | cons a p ih =>
    rw [tensor2_cons, E2_cons, E1_smul1, E1_cons, ih]
    ring

/-- Products of product-form polynomials factor coefficient-wise. -/
theorem coeff2_pmul2_tensor2 (A B C D : Poly1) (i j : Nat) :
    coeff2 (pmul2 (tensor2 A B) (tensor2 C D)) i j
      = coeff2 (tensor2 (pmul1 A C) (pmul1 B D)) i j := by
  rw [coeff2_pmul2, coeff2_tensor2, coeff1_pmul1, coeff1_pmul1,
    Finset.sum_mul_sum]
  refine Finset.sum_congr rfl fun a _ => Finset.sum_congr rfl fun b _ => ?_
  rw [coeff2_tensor2, coeff2_tensor2]
  ring

/-- Expectation of a product of two product-form polynomials factors into
per-dimension expectations. -/
theorem E2_pmul2_tensor2 (ma mi : Nat → ℚ) (A B C D : Poly1) :
    E2 ma mi (pmul2 (tensor2 A B) (tensor2 C D))
      = E1 ma (pmul1 A C) * E1 mi (pmul1 B D) := by
  rw [E2_congr ma mi (fun i j => coeff2_pmul2_tensor2 A B C D i j),
    E2_tensor2]

/-- Expectation of a weighted product of product-form polynomials factors into
per-dimension expectations. -/
theorem E2_weighted_tensor2 (ma mi : Nat → ℚ) (W V A B C D : Poly1) :
    E2 ma mi (pmul2 (tensor2 W V) (pmul2 (tensor2 A B) (tensor2 C D)))
      = E1 ma (pmul1 W (pmul1 A C)) * E1 mi (pmul1 V (pmul1 B D)) := by
  rw [E2_congr ma mi (fun i j => coeff2_pmul2_congr_right (tensor2 W V)
    (fun i j => coeff2_pmul2_tensor2 A B C D i j) i j)]
  rw [E2_pmul2_tensor2]

/-! ## The engine instantiated on the tutorial scenario

`a ~ Uniform(1/10, 1/5)`, `I ~ Uniform(1, 2)`, polynomial order 3. -/

/-- Modelled from the spec: the Distribution Interface's expectation primitive,
here the exact raw moments `E[x^k]` of `Uniform(lo, hi)`. -/
def momU (lo hi : ℚ) (k : Nat) : ℚ :=
  (hi ^ (k + 1) - lo ^ (k + 1)) / ((k + 1) * (hi - lo))

/-- Raw moments of the decay-rate parameter `a ~ Uniform(1/10, 1/5)`. -/
def ma : Nat → ℚ := momU (1/10) (1/5)

/-- Raw moments of the initial condition `I ~ Uniform(1, 2)`. -/
def mI : Nat → ℚ := momU 1 2

/-- Modelled from the spec: one step of the Stieltjes procedure of the
Univariate Recurrence Builder (`chaospy.orth_ttr`'s internals are not part of
the repository sources).  Given `(Φ_{n-1}, Φ_n)`, it computes
`alpha_n = E[x Φ_n²]/E[Φ_n²]`, `beta_n = E[Φ_n²]/E[Φ_{n-1}²]` and returns
`(Φ_n, (x - alpha_n) Φ_n - beta_n Φ_{n-1})`. -/
def orthStep (m : Nat → ℚ) (pp : Poly1 × Poly1) : Poly1 × Poly1 :=
  let ec := E1 m (pmul1 pp.2 pp.2)
  let ep := E1 m (pmul1 pp.1 pp.1)
  let alpha := E1 m (pmul1 (xshift1 pp.2) pp.2) / ec
  (pp.2, padd1 (xshift1 pp.2)
    (padd1 (smul1 (-alpha) pp.2) (smul1 (-(ec / ep)) pp.1)))

/-- Modelled from the spec: the three-term recurrence, started from
`Φ_{-1} = 0`, `Φ_0 = 1`. -/
def orthRec (m : Nat → ℚ) : Nat → Poly1 × Poly1
  | 0 => ([], [1])
  | n + 1 => orthStep m (orthRec m n)

/-- The `n`-th monic orthogonal polynomial for the moment functional `m`. -/
def orthPoly1 (m : Nat → ℚ) (n : Nat) : Poly1 := (orthRec m n).2

/-- Squared norm `E[Φ_n²]` of the `n`-th univariate orthogonal polynomial,
evaluated through the recurrence's expectation functional. -/
def norm1 (m : Nat → ℚ) (n : Nat) : ℚ :=
  E1 m (pmul1 (orthPoly1 m n) (orthPoly1 m n))

/-- Degree in the `a` dimension of a multi-index. -/
def aDeg (mi : List Nat) : Nat := mi.getD 0 0

/-- Degree in the `I` dimension of a multi-index. -/
def iDeg (mi : List Nat) : Nat := mi.getD 1 0

/-- The multivariate basis polynomial of one multi-index: the product of the
per-dimension univariate orthogonal polynomials. -/
def mkPhi (mi : List Nat) : Poly2 :=
  tensor2 (orthPoly1 ma (aDeg mi)) (orthPoly1 mI (iDeg mi))

/-- The basis `chaospy.orth_ttr(3, distribution)` of the tutorial: one
polynomial per multi-index of total degree at most 3, in graded-lexicographic
order. -/
def polynomial_expansion : List Poly2 := (multiIndices 2 3).map mkPhi

/-- The squared-norm vector returned alongside the basis (`retall=True`),
the product of the per-dimension recurrence norms. -/
def norms : List ℚ :=
  (multiIndices 2 3).map (fun mi => norm1 ma (aDeg mi) * norm1 mI (iDeg mi))

/-- The `k`-th basis polynomial. -/
def Phi (k : Fin 10) : Poly2 := polynomial_expansion.getD ↑k []

/-- The `k`-th squared norm. -/
def normsv (k : Fin 10) : ℚ := norms.getD ↑k 0

/-- The polynomial variable `a` (`chaospy.variable(2)`, first position). -/
def var_a : Poly2 := tensor2 [0, 1] [1]

/-- The polynomial variable `I` (`chaospy.variable(2)`, second position). -/
def var_I : Poly2 := tensor2 [1] [0, 1]

/-- The constant polynomial `1`, the default coupling-tensor weight. -/
def pone : Poly2 := tensor2 [1] [1]

/-- The weighted coupling tensor `T[n,k] = E[w · Φ_n · Φ_k]`. -/
def couplingTensor (w : Poly2) (n k : Fin 10) : ℚ :=
  E2 ma mI (pmul2 w (pmul2 (Phi n) (Phi k)))

/-- `expected_app = chaospy.E(var_a * phi_outer, distribution)`:
the `a`-weighted coupling tensor of the tutorial. -/
def expected_app (n k : Fin 10) : ℚ := couplingTensor var_a n k

/-- The tutorial's `right_hand_side(c, t)`:
`-numpy.sum(c*expected_app, -1)/norms`, i.e. output index `k` contracts `c`
against row `k` of `expected_app` and divides by `norms[k]`. -/
def right_hand_side (c : Fin 10 → ℚ) (t : ℚ) : Fin 10 → ℚ :=
  fun k => -(∑ n, c n * expected_app k n) / normsv k

/-- `expected_Ip = chaospy.E(var_I * polynomial_expansion, distribution)`:
the rank-1 coupling vector `E[I · Φ_k]`. -/
def expected_Ip (k : Fin 10) : ℚ := E2 ma mI (pmul2 var_I (Phi k))

/-- The tutorial's `initial_condition = expected_Ip / norms`. -/
def initial_condition (k : Fin 10) : ℚ := expected_Ip k / normsv k

/-- Reconstruction helper: `Σ_{k ∈ l} c[k] · Φ_k`. -/
def u_approx_aux (c : Fin 10 → ℚ) : List (Fin 10) → Poly2
  | [] => []
  | k :: ks => padd2 (smul2 (c k) (Phi k)) (u_approx_aux c ks)

/-- The tutorial's `u_approx = chaospy.sum(polynomial_expansion*coefficients, -1)`
for one coefficient vector. -/
def u_approx (c : Fin 10 → ℚ) : Poly2 := u_approx_aux c (List.finRange 10)

/-- The tutorial's `mean = chaospy.E(u_approx, distribution)`. -/
def mean (c : Fin 10 → ℚ) : ℚ := E2 ma mI (u_approx c)

/-- The tutorial's `variance = chaospy.Var(u_approx, distribution)`,
`Var[u] = E[u²] - E[u]²`. -/
def variance (c : Fin 10 → ℚ) : ℚ :=
  E2 ma mI (pmul2 (u_approx c) (u_approx c)) - (mean c) ^ 2

/-- The error kinds of the Galerkin System Builder. -/
inductive GalerkinError where
  | SingularNormError : GalerkinError
deriving DecidableEq

/-- Modelled from the spec: the Galerkin System Builder's construction-time
norm check — `fail with SingularNormError rather than dividing` when some
norm is at or below the numeric-stability threshold `tol` (the tutorial
notebook inlines the system without this check). -/
def build_galerkin_system (ns : List ℚ) (tol : ℚ) :
    Except GalerkinError (((Fin 10 → ℚ) → ℚ → Fin 10 → ℚ) × (Fin 10 → ℚ)) :=
  if ns.all (fun x => tol < x) then
    .ok (right_hand_side, initial_condition)
  else
    .error .SingularNormError

/-! ### Expansion lemmas for the reconstruction -/

theorem E2_u_approx_aux (c : Fin 10 → ℚ) (l : List (Fin 10)) :
    E2 ma mI (u_approx_aux c l)
      = (l.map (fun k => c k * E2 ma mI (Phi k))).sum := by
  induction l with
  | nil => rfl
  | cons k ks ih =>
    rw [u_approx_aux, E2_padd2, E2_smul2, ih, List.map_cons, List.sum_cons]

theorem E2_pmul2_u_approx_aux_left (c : Fin 10 → ℚ) (l : List (Fin 10))
    (Q : Poly2) :
    E2 ma mI (pmul2 (u_approx_aux c l) Q)
      = (l.map (fun k => c k * E2 ma mI (pmul2 (Phi k) Q))).sum := by
  induction l with
  | nil => rfl
  | cons k ks ih =>
    rw [u_approx_aux, E2_pmul2_add_left, E2_pmul2_smul_left, ih,
      List.map_cons, List.sum_cons]

theorem E2_pmul2_u_approx_aux_right (c : Fin 10 → ℚ) (l : List (Fin 10))
    (P : Poly2) :
    E2 ma mI (pmul2 P (u_approx_aux c l))
      = (l.map (fun k => c k * E2 ma mI (pmul2 P (Phi k)))).sum := by
  induction l with
  | nil => rw [show u_approx_aux c [] = [] from rfl, E2_pmul2_nil_right]; rfl
  | cons k ks ih =>
    rw [u_approx_aux, E2_pmul2_add_right, E2_pmul2_smul_right, ih,
      List.map_cons, List.sum_cons]

/-! ## Concrete values for the tutorial scenario -/

theorem miLit : multiIndices 2 3 =
    [[0, 0], [0, 1], [1, 0], [0, 2], [1, 1], [2, 0],
     [0, 3], [1, 2], [2, 1], [3, 0]] := by rfl

theorem pa0 : orthPoly1 ma 0 = [1] := rfl

theorem pa1 : orthPoly1 ma 1 = [-3/20, 1] := by
  norm_num [orthPoly1, orthRec, orthStep, E1_cons, E1_nil, pmul1_cons,
    pmul1_nil_left, padd1_cons, padd1_nil_left, padd1_nil_right, smul1_cons,
    smul1_nil, xshift1, ma, momU]

theorem pa2 : orthPoly1 ma 2 = [13/600, -3/10, 1] := by
  norm_num [orthPoly1, orthRec, orthStep, E1_cons, E1_nil, pmul1_cons,
    pmul1_nil_left, padd1_cons, padd1_nil_left, padd1_nil_right, smul1_cons,
    smul1_nil, xshift1, ma, momU]

theorem pa3 : orthPoly1 ma 3 = [-63/20000, 33/500, -9/20, 1] := by
  norm_num [orthPoly1, orthRec, orthStep, E1_cons, E1_nil, pmul1_cons,
    pmul1_nil_left, padd1_cons, padd1_nil_left, padd1_nil_right, smul1_cons,
    smul1_nil, xshift1, ma, momU]

theorem pI0 : orthPoly1 mI 0 = [1] := rfl

theorem pI1 : orthPoly1 mI 1 = [-3/2, 1] := by
  norm_num [orthPoly1, orthRec, orthStep, E1_cons, E1_nil, pmul1_cons,
    pmul1_nil_left, padd1_cons, padd1_nil_left, padd1_nil_right, smul1_cons,
    smul1_nil, xshift1, mI, momU]

theorem pI2 : orthPoly1 mI 2 = [13/6, -3, 1] := by
  norm_num [orthPoly1, orthRec, orthStep, E1_cons, E1_nil, pmul1_cons,
    pmul1_nil_left, padd1_cons, padd1_nil_left, padd1_nil_right, smul1_cons,
    smul1_nil, xshift1, mI, momU]

theorem pI3 : orthPoly1 mI 3 = [-63/20, 33/5, -9/2, 1] := by
  norm_num [orthPoly1, orthRec, orthStep, E1_cons, E1_nil, pmul1_cons,
    pmul1_nil_left, padd1_cons, padd1_nil_left, padd1_nil_right, smul1_cons,
    smul1_nil, xshift1, mI, momU]

theorem E1_pmul1_one_left (m : Nat → ℚ) (p : Poly1) :
    E1 m (pmul1 [1] p) = E1 m p := by
  rw [pmul1_cons, pmul1_nil_left, E1_padd1, E1_smul1]
  rw [show E1 m (xshift1 []) = 0 * m 0 + 0 from rfl]
  ring

/-- 1-D orthogonality in the `a` dimension. -/
theorem orthA_off : ∀ i k : Nat, i ≤ 3 → k ≤ 3 → i ≠ k →
    E1 ma (pmul1 (orthPoly1 ma i) (orthPoly1 ma k)) = 0 := by
  intro i k hi hk hne
  interval_cases i <;> interval_cases k <;>
    first
    | exact absurd rfl hne
    | (simp only [pa0, pa1, pa2, pa3]
       norm_num [E1_cons, E1_nil, pmul1_cons, pmul1_nil_left, padd1_cons,
         padd1_nil_left, padd1_nil_right, smul1_cons, smul1_nil, xshift1,
         ma, momU])

/-- 1-D orthogonality in the `I` dimension. -/
theorem orthI_off : ∀ i k : Nat, i ≤ 3 → k ≤ 3 → i ≠ k →
    E1 mI (pmul1 (orthPoly1 mI i) (orthPoly1 mI k)) = 0 := by
  intro i k hi hk hne
  interval_cases i <;> interval_cases k <;>
    first
    | exact absurd rfl hne
    | (simp only [pI0, pI1, pI2, pI3]
       norm_num [E1_cons, E1_nil, pmul1_cons, pmul1_nil_left, padd1_cons,
         padd1_nil_left, padd1_nil_right, smul1_cons, smul1_nil, xshift1,
         mI, momU])

/-- Means of the univariate basis polynomials in the `a` dimension. -/
theorem EA_tbl : ∀ i : Nat, i ≤ 3 →
    E1 ma (orthPoly1 ma i) = if i = 0 then 1 else 0 := by
  intro i hi
  interval_cases i <;>
    (simp only [pa0, pa1, pa2, pa3]
     norm_num [E1_cons, E1_nil, ma, momU])

/-- Means of the univariate basis polynomials in the `I` dimension. -/
theorem EI_tbl : ∀ j : Nat, j ≤ 3 →
    E1 mI (orthPoly1 mI j) = if j = 0 then 1 else 0 := by
  intro j hj
  interval_cases j <;>
    (simp only [pI0, pI1, pI2, pI3]
     norm_num [E1_cons, E1_nil, mI, momU])

/-- The rank-1 coupling values `E[I · q_j]` in the `I` dimension. -/
theorem TI_tbl : ∀ j : Nat, j ≤ 3 →
    E1 mI (pmul1 [0, 1] (orthPoly1 mI j))
      = [(3 : ℚ)/2, 1/12, 0, 0].getD j 0 := by
  intro j hj
  interval_cases j <;>
    (simp only [pI0, pI1, pI2, pI3]
     norm_num [E1_cons, E1_nil, pmul1_cons, pmul1_nil_left, padd1_cons,
       padd1_nil_left, padd1_nil_right, smul1_cons, smul1_nil, xshift1,
       mI, momU, List.getD])

/-- Squared norms of the univariate basis in the `a` dimension. -/
theorem naVal : ∀ i : Nat, i ≤ 3 →
    norm1 ma i = [(1 : ℚ), 1/1200, 1/1800000, 1/2800000000].getD i 0 := by
  intro i hi
  interval_cases i <;>
    (simp only [norm1, pa0, pa1, pa2, pa3]
     norm_num [E1_cons, E1_nil, pmul1_cons, pmul1_nil_left, padd1_cons,
       padd1_nil_left, padd1_nil_right, smul1_cons, smul1_nil, xshift1,
       ma, momU, List.getD])

/-- Squared norms of the univariate basis in the `I` dimension. -/
theorem nIVal : ∀ j : Nat, j ≤ 3 →
    norm1 mI j = [(1 : ℚ), 1/12, 1/180, 1/2800].getD j 0 := by
  intro j hj
  interval_cases j <;>
    (simp only [norm1, pI0, pI1, pI2, pI3]
     norm_num [E1_cons, E1_nil, pmul1_cons, pmul1_nil_left, padd1_cons,
       padd1_nil_left, padd1_nil_right, smul1_cons, smul1_nil, xshift1,
       mI, momU, List.getD])

/-- The multi-index at position `k` of the basis ordering. -/
def miIdx (k : Fin 10) : List Nat := (multiIndices 2 3).getD ↑k []

theorem Phi_mk : ∀ k : Fin 10, Phi k = mkPhi (miIdx k) := by
  intro k; fin_cases k <;> rfl

theorem normsv_mk : ∀ k : Fin 10,
    normsv k = norm1 ma (aDeg (miIdx k)) * norm1 mI (iDeg (miIdx k)) := by
  intro k; fin_cases k <;> rfl

theorem miDeg_le : ∀ k : Fin 10, aDeg (miIdx k) ≤ 3 ∧ iDeg (miIdx k) ≤ 3 := by
  decide

theorem miIdx_inj : ∀ i j : Fin 10, i ≠ j →
    aDeg (miIdx i) ≠ aDeg (miIdx j) ∨ iDeg (miIdx i) ≠ iDeg (miIdx j) := by
  decide

/-- The weighted coupling tensor factors into per-dimension expectations. -/
theorem couplingTensor_decomp (W V : Poly1) (n k : Fin 10) :
    couplingTensor (tensor2 W V) n k
      = E1 ma (pmul1 W (pmul1 (orthPoly1 ma (aDeg (miIdx n)))
          (orthPoly1 ma (aDeg (miIdx k)))))
        * E1 mI (pmul1 V (pmul1 (orthPoly1 mI (iDeg (miIdx n)))
          (orthPoly1 mI (iDeg (miIdx k))))) := by
  rw [couplingTensor, Phi_mk n, Phi_mk k]
  simp only [mkPhi]
  rw [E2_weighted_tensor2]

/-- The unweighted pairing of two basis elements factors per dimension. -/
theorem orth2_decomp (n k : Fin 10) :
    E2 ma mI (pmul2 (Phi n) (Phi k))
      = E1 ma (pmul1 (orthPoly1 ma (aDeg (miIdx n)))
          (orthPoly1 ma (aDeg (miIdx k))))
        * E1 mI (pmul1 (orthPoly1 mI (iDeg (miIdx n)))
          (orthPoly1 mI (iDeg (miIdx k)))) := by
  rw [Phi_mk n, Phi_mk k]
  simp only [mkPhi]
  rw [E2_pmul2_tensor2]

/-- Every weighted coupling tensor is symmetric, because polynomial
multiplication is commutative at the level of coefficients. -/
theorem couplingTensor_symm (w : Poly2) (n k : Fin 10) :
    couplingTensor w n k = couplingTensor w k n := by
  unfold couplingTensor
  exact E2_congr ma mI fun i j =>
    coeff2_pmul2_congr_right w
      (fun i j => coeff2_pmul2_comm (Phi n) (Phi k) i j) i j

/-- Orthogonality with exact norms: the Gram matrix of the basis is the
diagonal of the squared norms. -/
theorem orth_matrix (n k : Fin 10) :
    E2 ma mI (pmul2 (Phi n) (Phi k)) = if n = k then normsv n else 0 := by
  rw [orth2_decomp]
  by_cases h : n = k
  · subst h
    rw [if_pos rfl, normsv_mk]
    rfl
  · rw [if_neg h]
    rcases miIdx_inj n k h with hA | hI
    · rw [orthA_off _ _ (miDeg_le n).1 (miDeg_le k).1 hA]
      ring
    · rw [orthI_off _ _ (miDeg_le n).2 (miDeg_le k).2 hI]
      ring

theorem norms_lit : norms =
    [1, 1/12, 1/1200, 1/180, 1/14400, 1/1800000,
     1/2800, 1/216000, 1/21600000, 1/2800000000] := by
  rw [norms, miLit]
  simp only [List.map_cons, List.map_nil]
  norm_num [aDeg, iDeg, List.getD_cons_zero, List.getD_cons_succ,
    naVal 0, naVal 1, naVal 2, naVal 3, nIVal 0, nIVal 1, nIVal 2, nIVal 3,
    List.getD]

theorem normsv_val (k : Fin 10) :
    normsv k = [(1 : ℚ), 1/12, 1/1200, 1/180, 1/14400, 1/1800000,
      1/2800, 1/216000, 1/21600000, 1/2800000000].getD ↑k 0 := by
  rw [normsv, norms_lit]

/-- The rank-1 coupling vector `E[I · Φ_k]` in closed form. -/
theorem expIp_val (k : Fin 10) :
    expected_Ip k
      = (if aDeg (miIdx k) = 0 then 1 else 0)
        * ([(3 : ℚ)/2, 1/12, 0, 0].getD (iDeg (miIdx k)) 0) := by
  rw [expected_Ip, Phi_mk k]
  simp only [mkPhi, var_I]
  rw [E2_pmul2_tensor2, E1_pmul1_one_left,
    EA_tbl _ (miDeg_le k).1, TI_tbl _ (miDeg_le k).2]

/-- The initial-condition vector in closed form: `(3/2, 1, 0, …, 0)`. -/
theorem ic_val (k : Fin 10) :
    initial_condition k
      = [(3 : ℚ)/2, 1, 0, 0, 0, 0, 0, 0, 0, 0].getD ↑k 0 := by
  rw [initial_condition, expIp_val k, normsv_val k]
  fin_cases k <;> norm_num [miIdx, miLit, aDeg, iDeg, List.getD]

/-! ### Moment reconstruction in closed form -/

/-- Means of the multivariate basis polynomials: `E[Φ_0] = 1`, `E[Φ_k] = 0`
for `k > 0`. -/
theorem E2_Phi (k : Fin 10) :
    E2 ma mI (Phi k) = if k = 0 then 1 else 0 := by
  rw [Phi_mk]
  simp only [mkPhi]
  rw [E2_tensor2, EA_tbl _ (miDeg_le k).1, EI_tbl _ (miDeg_le k).2]
  fin_cases k <;>
    norm_num [miIdx, miLit, aDeg, iDeg, List.getD, Fin.ext_iff]

theorem sum_finRange_eq (f : Fin 10 → ℚ) :
    ((List.finRange 10).map f).sum = ∑ k, f k := rfl

/-- The mean of the reconstructed expansion is the zeroth coefficient. -/
theorem mean_formula (c : Fin 10 → ℚ) : mean c = c 0 := by
  rw [mean, u_approx, E2_u_approx_aux, sum_finRange_eq]
  have h : ∀ k : Fin 10, c k * E2 ma mI (Phi k)
      = if k = 0 then c k else 0 := by
    intro k
    rw [E2_Phi]
    split_ifs <;> ring
  rw [Finset.sum_congr rfl fun k _ => h k]
  simp

/-- The second moment of the reconstructed expansion is the norm-weighted sum
of squared coefficients. -/
theorem second_moment_formula (c : Fin 10 → ℚ) :
    E2 ma mI (pmul2 (u_approx c) (u_approx c))
      = ∑ k, (c k) ^ 2 * normsv k := by
  rw [show u_approx c = u_approx_aux c (List.finRange 10) from rfl,
    E2_pmul2_u_approx_aux_left, sum_finRange_eq]
  refine Finset.sum_congr rfl fun k _ => ?_
  rw [E2_pmul2_u_approx_aux_right, sum_finRange_eq]
  have h : ∀ l : Fin 10, c l * E2 ma mI (pmul2 (Phi k) (Phi l))
      = if l = k then c k * normsv k else 0 := by
    intro l
    rw [orth_matrix]
    rcases eq_or_ne k l with h | h
    · subst h; simp
    · rw [if_neg h, if_neg (Ne.symm h)]; ring
  rw [Finset.sum_congr rfl fun l _ => h l]
  simp only [Finset.sum_ite_eq' Finset.univ k (fun _ => c k * normsv k),
    Finset.mem_univ, if_true]
  ring

/-- The variance of the reconstructed expansion drops the zeroth term
(`norms[0] = 1`). -/
theorem variance_formula (c : Fin 10 → ℚ) :
    variance c
      = ∑ k ∈ Finset.univ.erase (0 : Fin 10), (c k) ^ 2 * normsv k := by
  rw [variance, second_moment_formula, mean_formula,
    ← Finset.add_sum_erase Finset.univ (fun k => (c k) ^ 2 * normsv k)
      (Finset.mem_univ 0)]
  have h0 : normsv 0 = 1 := by rw [normsv_val]; rfl
  rw [h0]
  ring

/-! ## Claims -/

/-- The fixed Galerkin matrix `A[k,n] = -T[n,k]/norms[k]`. -/
def Amat (k n : Fin 10) : ℚ := -(expected_app n k) / normsv k

theorem coeff2_u_approx_aux (c : Fin 10 → ℚ) (l : List (Fin 10)) (i j : Nat) :
    coeff2 (u_approx_aux c l) i j
      = (l.map (fun k => c k * coeff2 (Phi k) i j)).sum := by
  induction l with
  | nil => rw [show u_approx_aux c [] = [] from rfl, coeff2_nil]; rfl
  | cons k ks ih =>
    rw [u_approx_aux, coeff2_padd2, coeff2_smul2, ih, List.map_cons,
      List.sum_cons]

/-- C1: the Galerkin right-hand side satisfies
`rhs(c,t)[k] = -(Σ_n c[n] · T[n,k]) / norms[k]` with `T` the `a`-weighted
coupling tensor; it is the fixed linear map `rhs(c,t) = A·c` for
`A[k,n] = -T[n,k]/norms[k]`, and its result does not depend on `t`. -/
theorem C1_rhs_fixed_linear_map (c : Fin 10 → ℚ) (t : ℚ) :
    (∀ k, right_hand_side c t k
        = -(∑ n, c n * expected_app n k) / normsv k)
    ∧ (∀ k, right_hand_side c t k = ∑ n, Amat k n * c n)
    ∧ (∀ t', right_hand_side c t = right_hand_side c t') := by
  have h1 : ∀ k, right_hand_side c t k
      = -(∑ n, c n * expected_app n k) / normsv k := by
    intro k
    rw [right_hand_side]
    rw [Finset.sum_congr rfl fun n _ => by
      rw [show expected_app k n = expected_app n k from
        couplingTensor_symm var_a k n]]
  refine ⟨h1, fun k => ?_, fun t' => rfl⟩
  rw [h1 k]
  rw [show ∑ n, Amat k n * c n
      = ∑ n, -(c n * expected_app n k) / normsv k from
    Finset.sum_congr rfl fun n _ => by rw [Amat]; ring]
  rw [← Finset.sum_div, ← Finset.sum_neg_distrib]

/-- C2: the norm-based moment-reconstruction shortcut is exact: the mean of
the reconstructed expansion `Σ_k c[k]·Φ_k` is `c[0]` and its variance is
`Σ_{k≥1} c[k]² · norms[k]`. -/
theorem C2_moment_reconstruction (c : Fin 10 → ℚ) :
    mean c = c 0
    ∧ variance c
        = ∑ k ∈ Finset.univ.erase (0 : Fin 10), (c k) ^ 2 * normsv k :=
  ⟨mean_formula c, variance_formula c⟩

/-- C3: distinct basis elements are orthogonal under the distribution, and the
coupling tensor with weight `1` is exactly the diagonal of the squared norms
returned by the three-term-recurrence construction. -/
theorem C3_orthogonality_prune :
    (∀ i j : Fin 10, i ≠ j → E2 ma mI (pmul2 (Phi i) (Phi j)) = 0)
    ∧ (∀ i j : Fin 10,
        couplingTensor pone i j = if i = j then normsv i else 0) := by
  have h2 : ∀ i j : Fin 10,
      couplingTensor pone i j = if i = j then normsv i else 0 := by
    intro i j
    rw [show pone = tensor2 [1] [1] from rfl, couplingTensor_decomp,
      E1_pmul1_one_left, E1_pmul1_one_left, ← orth2_decomp, orth_matrix]
  refine ⟨fun i j hij => ?_, h2⟩
  rw [orth_matrix, if_neg hij]

theorem C3_orthogonality_prune_witness :
    E2 ma mI (pmul2 (Phi 0) (Phi 1)) = 0
    ∧ couplingTensor pone 0 0 = if (0 : Fin 10) = 0 then normsv 0 else 0 :=
  ⟨C3_orthogonality_prune.1 0 1 (by decide), C3_orthogonality_prune.2 0 0⟩

/-- C4: the basis has exactly `C(order + d, d)` elements — one per multi-index
of total degree at most `order` — and in particular 10 elements for `d = 2`,
`order = 3`. -/
theorem C4_basis_size (d order : Nat) (hd : 1 ≤ d) :
    (multiIndices d order).length = (order + d).choose d
    ∧ (multiIndices 2 3).length = 10 := by
  constructor
  · cases d with
    | zero => omega
    | succ e =>
      rw [multiIndices, List.length_flatMap]
      have hb : (List.map (List.length ∘ fun g => compositions (e + 1) g)
          (List.range (order + 1))).sum
          = ∑ g ∈ Finset.range (order + 1),
              (compositions (e + 1) g).length := rfl
      rw [hb, Finset.sum_congr rfl fun g _ => compositions_length e g,
        Nat.sum_range_add_choose order e, Nat.add_assoc]
  · rw [miLit]; rfl

theorem C4_basis_size_witness :
    1 ≤ 2 ∧ (multiIndices 2 3).length = (3 + 2).choose 2 ∧
      (multiIndices 2 3).length = 10 :=
  ⟨by decide, C4_basis_size 2 3 (by decide)⟩

/-- C5: every squared norm produced by the basis construction is strictly
positive, and in the example `norms[0] = 1`. -/
theorem C5_norm_positivity :
    (∀ k : Fin 10, 0 < normsv k) ∧ normsv 0 = 1 := by
  constructor
  · intro k
    rw [normsv_val]
    fin_cases k <;> norm_num [List.getD]
  · rw [normsv_val]; rfl

/-- C6: the multi-indices are enumerated in one fixed canonical order — graded
by total degree, ties broken lexicographically — the first four being
`(0,0), (0,1), (1,0), (0,2)`; the basis, the norms, the coupling tensors and
the coefficient vectors all use this same position-to-multi-index
correspondence. -/
theorem C6_canonical_ordering :
    (∀ d order : Nat, (multiIndices d order).Pairwise gradedLex)
    ∧ (multiIndices 2 3).take 4 = [[0, 0], [0, 1], [1, 0], [0, 2]]
    ∧ polynomial_expansion = (multiIndices 2 3).map mkPhi
    ∧ norms = (multiIndices 2 3).map
        (fun mi => norm1 ma (aDeg mi) * norm1 mI (iDeg mi))
    ∧ (∀ k : Fin 10, Phi k = mkPhi (miIdx k)
        ∧ normsv k
            = norm1 ma (aDeg (miIdx k)) * norm1 mI (iDeg (miIdx k))) :=
  ⟨multiIndices_pairwise, by rw [miLit]; rfl, rfl, rfl,
    fun k => ⟨Phi_mk k, normsv_mk k⟩⟩

/-- C7: the initial-condition vector is `c0[k] = E[I·Φ_k]/norms[k]`; in the
example `c0[0] = 3/2` (the mean of `I`) and `c0[k] = 0` for every other `k`
whose multi-index does not involve the `I` dimension's degree-1 term. -/
theorem C7_initial_condition_rule :
    (∀ k : Fin 10, initial_condition k = expected_Ip k / normsv k)
    ∧ initial_condition 0 = 3/2
    ∧ (∀ k : Fin 10, k ≠ 0 → iDeg (miIdx k) ≠ 1 →
        initial_condition k = 0) := by
  refine ⟨fun k => rfl, by rw [ic_val]; rfl, ?_⟩
  intro k h0 h1
  rw [ic_val]
  fin_cases k <;>
    first
    | exact absurd rfl h0
    | exact absurd rfl h1
    | rfl

theorem C7_initial_condition_rule_witness :
    ((2 : Fin 10) ≠ 0 ∧ iDeg (miIdx 2) ≠ 1) ∧ initial_condition 2 = 0 :=
  ⟨⟨by decide, by decide⟩,
    C7_initial_condition_rule.2.2 2 (by decide) (by decide)⟩

/-- C8: every weighted coupling tensor is symmetric, in particular the
`a`-weighted tensor `expected_app` of the tutorial. -/
theorem C8_coupling_tensor_symmetric :
    (∀ (w : Poly2) (i j : Fin 10), couplingTensor w i j = couplingTensor w j i)
    ∧ (∀ i j : Fin 10, expected_app i j = expected_app j i) :=
  ⟨couplingTensor_symm, fun i j => couplingTensor_symm var_a i j⟩

/-- C9: the Galerkin System Builder fails with `SingularNormError` before any
division when some norm is at or below the threshold; in the example the
built `rhs` and `c0` are total: every `norms[k]` is nonzero and the division
in `rhs` is genuine. -/
theorem C9_fail_fast_total_rhs (ns : List ℚ) (tol : ℚ) :
    ((∃ x ∈ ns, x ≤ tol) →
        build_galerkin_system ns tol
          = .error GalerkinError.SingularNormError)
    ∧ ((∀ x ∈ ns, tol < x) →
        build_galerkin_system ns tol
          = .ok (right_hand_side, initial_condition))
    ∧ (∀ k : Fin 10, normsv k ≠ 0)
    ∧ (∀ (c : Fin 10 → ℚ) (t : ℚ) (k : Fin 10),
        right_hand_side c t k * normsv k
          = -(∑ n, c n * expected_app k n)) := by
  have hne : ∀ k : Fin 10, normsv k ≠ 0 := by
    intro k
    rw [normsv_val]
    fin_cases k <;> norm_num [List.getD]
  refine ⟨?_, ?_, hne, ?_⟩
  · intro h
    have hfalse : ns.all (fun x => tol < x) = false := by
      rw [List.all_eq_false]
      obtain ⟨x, hx, hle⟩ := h
      exact ⟨x, hx, by simpa using not_lt.mpr hle⟩
    simp [build_galerkin_system, hfalse]
  · intro h
    have htrue : ns.all (fun x => tol < x) = true := by
      rw [List.all_eq_true]
      intro x hx
      simpa using h x hx
    simp [build_galerkin_system, htrue]
  · intro c t k
    show -(∑ n, c n * expected_app k n) / normsv k * normsv k = _
    exact div_mul_cancel₀ _ (hne k)

theorem C9_fail_fast_total_rhs_witness :
    (∃ x ∈ [(0 : ℚ)], x ≤ 0)
    ∧ build_galerkin_system [0] 0
        = .error GalerkinError.SingularNormError :=
  ⟨⟨0, by simp, le_refl 0⟩,
    (C9_fail_fast_total_rhs [0] 0).1 ⟨0, by simp, le_refl 0⟩⟩

/-- C10: in the example, the initial-condition vector has exactly two nonzero
entries — `c0[0] = 3/2` and `c0[1] = 1` at the position of multi-index
`(0,1)`, whose basis polynomial is `q1 - 3/2` — so the reconstructed expansion
at `t = 0` equals `I` exactly and the reconstructed variance is
`Var(I) = 1/12`. -/
theorem C10_initial_reconstruction :
    initial_condition 0 = 3/2
    ∧ initial_condition 1 = 1
    ∧ (∀ k : Fin 10, k ≠ 0 → k ≠ 1 → initial_condition k = 0)
    ∧ miIdx 1 = [0, 1]
    ∧ Phi 1 = tensor2 [1] [-3/2, 1]
    ∧ (∀ i j : Nat,
        coeff2 (u_approx initial_condition) i j = coeff2 var_I i j)
    ∧ variance initial_condition = 1/12 := by
  have h0 : initial_condition 0 = 3/2 := by rw [ic_val]; rfl
  have h1 : initial_condition 1 = 1 := by rw [ic_val]; rfl
  have hz : ∀ k : Fin 10, k ≠ 0 → k ≠ 1 → initial_condition k = 0 := by
    intro k hk0 hk1
    rw [ic_val]
    fin_cases k <;>
      first
      | exact absurd rfl hk0
      | exact absurd rfl hk1
      | rfl
  have hPhi0 : Phi 0 = tensor2 [1] [1] := by
    rw [Phi_mk]
    simp only [mkPhi]
    rw [show aDeg (miIdx 0) = 0 from rfl, show iDeg (miIdx 0) = 0 from rfl,
      pa0, pI0]
  have hPhi1 : Phi 1 = tensor2 [1] [-3/2, 1] := by
    rw [Phi_mk]
    simp only [mkPhi]
    rw [show aDeg (miIdx 1) = 0 from rfl, show iDeg (miIdx 1) = 1 from rfl,
      pa0, pI1]
  have hexp : ∀ i j : Nat,
      coeff2 (u_approx initial_condition) i j = coeff2 var_I i j := by
    intro i j
    rw [u_approx, coeff2_u_approx_aux, sum_finRange_eq]
    rw [Finset.sum_eq_add_of_mem 0 1 (Finset.mem_univ 0) (Finset.mem_univ 1)
      (by decide) (fun b _ hb => by
        rw [hz b hb.1 hb.2]; ring)]
    rw [h0, h1, hPhi0, hPhi1, show var_I = tensor2 [1] [0, 1] from rfl,
      coeff2_tensor2, coeff2_tensor2, coeff2_tensor2]
    cases i with
    | zero =>
      simp only [coeff1_cons_zero]
      cases j with
      | zero => norm_num [coeff1_cons_zero, coeff1_cons_succ, coeff1_nil]
      | succ n =>
        cases n with
        | zero => norm_num [coeff1_cons_zero, coeff1_cons_succ, coeff1_nil]
        | succ n =>
          simp only [coeff1_cons_succ, coeff1_nil]
          ring
    | succ i =>
      simp only [coeff1_cons_succ, coeff1_nil]
      ring
  have hvar : variance initial_condition = 1/12 := by
    rw [variance_formula]
    rw [Finset.sum_eq_single_of_mem 1 (by decide)
      (fun b hb hb1 => by
        rw [hz b (Finset.ne_of_mem_erase hb) hb1]; ring)]
    rw [h1, normsv_val]
    norm_num [List.getD]
  exact ⟨h0, h1, hz, rfl, hPhi1, hexp, hvar⟩

theorem C10_initial_reconstruction_witness :
    ((3 : Fin 10) ≠ 0 ∧ (3 : Fin 10) ≠ 1) ∧ initial_condition 3 = 0 :=
  ⟨⟨by decide, by decide⟩,
    C10_initial_reconstruction.2.2.1 3 (by decide) (by decide)⟩
